import Mathlib

/-!
Shallow embedding of the live terminal dashboard core (files src/lib.rs and
src/terminal/terminal_handler.rs of the lean_tui repository).

The crate root src/lib.rs declares only the module model, so lib.rs is the
code that is actually compiled and run; the file
src/terminal/terminal_handler.rs is an unmounted revision of the same logic.
The embedding below therefore follows src/lib.rs; line references are to
that file unless stated otherwise.

Numeric modelling: the Rust code stores equity points as pairs of f64.  The
properties below use only the linear order on the values, comparison with
zero and exact equality of pairs, none of which depend on floating point
rounding, so f64 is modelled by Int (no NaN is involved: a NaN value fails
the strictly positive filter and never enters the state).

Fallible steps: every place where the Rust code calls unwrap on an Option
or where a sort comparator may panic is modelled by an Option result, none
standing for the panic.
-/

namespace LeanTui

/-- Modelled from the spec: one equity sample of a chart series, a pair of
time and value (the model module of the repository is not under src, its
shape is fixed by the use in lib.rs lines 93 to 97). -/
structure ChartPoint where
  x : Int
  y : Int
deriving DecidableEq, Repr

/-- Modelled from the spec: a chart series carrying its sample points, as
used in lib.rs line 93 (points.Values). -/
structure SeriesData where
  Values : List ChartPoint
deriving DecidableEq, Repr

/-- Modelled from the spec: a named chart holding a map from series name to
series, as used in lib.rs line 91 (v.Series).  The hash map is embedded as
an association list. -/
structure ChartData where
  Series : List (String × SeriesData)
deriving DecidableEq, Repr

/-- Modelled from the spec: the rendering-ready projection of one order,
five short display labels (time, type, side, quantity, symbol). -/
structure Order where
  time : String
  otype : String
  side : String
  quantity : String
  symbol : String
deriving DecidableEq, Repr

/-- Modelled from the spec: Order.into_spans of the model module, the
projection of an order to the tuple consumed by lib.rs line 125. -/
def Order.into_spans (o : Order) : String × String × String × String × String :=
  (o.time, o.otype, o.side, o.quantity, o.symbol)

/-- Models the Results part of a backtest result packet: optional chart map
and optional order map, both embedded as association lists (lib.rs lines 89
and 110). -/
structure BacktestResult where
  Charts : Option (List (String × ChartData))
  Orders : Option (List (String × Order))
deriving DecidableEq, Repr

/-- Models model::BacktestResultPacket as consumed by lib.rs. -/
structure BacktestResultPacket where
  Results : BacktestResult
deriving DecidableEq, Repr

/-- Models the Message enum of lib.rs lines 33 to 37. -/
inductive Message where
  | Packet (packet : BacktestResultPacket)
  | Log (msg : String) (error : Bool)
  | Stop
deriving DecidableEq, Repr

/-- Models the mutable aggregation state of the render thread, the local
variables of the closure in lib.rs lines 54 to 60.  A log item keeps the
line text together with the error flag that chose its style. -/
structure TermState where
  logs : List (String × Bool)
  equity_data : List (Int × Int)
  order_times : List String
  order_types : List String
  order_sides : List String
  order_qty : List String
  order_symbol : List String
deriving DecidableEq, Repr

/-- Models the freshly initialised aggregation state (lib.rs lines 54 to
60): every collection starts empty. -/
def initState : TermState :=
  { logs := [], equity_data := [], order_times := [], order_types := [],
    order_sides := [], order_qty := [], order_symbol := [] }

/-- Models u64::from_str as used by the sort comparator in lib.rs line 116:
an optional leading plus sign, then a nonempty run of decimal digits, with
the result required to fit in 64 bits. -/
def parseU64chars (acc : Nat) : List Char → Option Nat
  | [] => some acc
  | c :: cs => if c.isDigit then parseU64chars (acc * 10 + (c.toNat - 48)) cs else none

/-- Models parsing a string key as u64 (lib.rs line 116). -/
def parseU64 (s : String) : Option Nat :=
  let cs := match s.toList with
            | '+' :: rest => rest
            | cs => cs
  match cs with
  | [] => none
  | cs =>
    match parseU64chars 0 cs with
    | some n => if n < 2 ^ 64 then some n else none
    | none => none

/-- Comparison key of the order sort in lib.rs line 116: the numeric value
of the string key.  The default 0 is only reached on keys that do not
parse, a case in which the modelled fold is none anyway whenever a
comparison actually happens. -/
def keyVal (kv : String × Order) : Nat :=
  (parseU64 kv.1).getD 0

/-- Ordering relation of the order sort (lib.rs line 116). -/
def keyLE (a b : String × Order) : Prop := keyVal a ≤ keyVal b

instance : DecidableRel keyLE :=
  fun a b => inferInstanceAs (Decidable (keyVal a ≤ keyVal b))

instance : IsTotal (String × Order) keyLE :=
  ⟨fun a b => Nat.le_total (keyVal a) (keyVal b)⟩

instance : IsTrans (String × Order) keyLE :=
  ⟨fun _ _ _ h h2 => le_trans h h2⟩

/-- Ordering relation of the equity sort in lib.rs line 103: compare the
time coordinates. -/
def timeLE (a b : Int × Int) : Prop := a.1 ≤ b.1

instance : DecidableRel timeLE :=
  fun a b => inferInstanceAs (Decidable (a.1 ≤ b.1))

instance : IsTotal (Int × Int) timeLE :=
  ⟨fun a b => Int.le_total a.1 b.1⟩

instance : IsTrans (Int × Int) timeLE :=
  ⟨fun _ _ _ h h2 => le_trans h h2⟩

/-- Models equity_data.sort_by of lib.rs line 103.  Rust Vec::sort_by is a
stable sort; List.insertionSort is stable as well, and a stable sort by a
fixed total preorder is unique, so the two agree on every input. -/
def sortByTime (l : List (Int × Int)) : List (Int × Int) :=
  l.insertionSort timeLE

/-- Models current_orders.sort_by of lib.rs line 116 on inputs whose keys
all parse (on other inputs the real comparator panics, handled in
ordersStep). -/
def sortOrders (l : List (String × Order)) : List (String × Order) :=
  l.insertionSort keyLE

/-- Models Vec::dedup of lib.rs line 104: remove consecutive repeated
elements, keeping the first element of each run.  List.destutter with the
inequality relation performs exactly this greedy pass. -/
def rustDedup (l : List (Int × Int)) : List (Int × Int) :=
  l.destutter (fun a b => a ≠ b)

/-- Models the Strategy Equity branch of the packet handler, lib.rs lines
89 to 108.  The nested match mirrors
Charts.get("Strategy Equity").map(|v| v.Series.get("Equity").unwrap()):
a missing Strategy Equity chart is a no-op, a Strategy Equity chart with no
Equity series panics (none), otherwise the new points are filtered to
strictly positive values, appended, sorted by time and deduplicated. -/
def equityStep (charts : Option (List (String × ChartData)))
    (equity_data : List (Int × Int)) : Option (List (Int × Int)) :=
  match charts with
  | none => some equity_data
  | some packet_charts =>
    match (packet_charts.lookup "Strategy Equity").map
        (fun v => v.Series.lookup "Equity") with
    | none => some equity_data
    | some none => none
    | some (some points) =>
      let new_points :=
        (points.Values.map (fun xy => (xy.x, xy.y))).filter
          (fun p => decide (0 < p.2))
      some (rustDedup (sortByTime (equity_data ++ new_points)))

/-- Models the Orders branch of the packet handler, lib.rs lines 110 to
133.  The sort comparator of line 116 unwraps the u64 parse of both keys on
every comparison: a sort of two or more entries compares every entry at
least once, so it panics exactly when some key fails to parse, while a
sort of at most one entry never invokes the comparator.  On success the
five columns are cleared and rebuilt from the sorted sequence. -/
def ordersStep (orders : Option (List (String × Order)))
    (st : TermState) : Option TermState :=
  match orders with
  | none => some st
  | some current_orders =>
    if current_orders.length ≤ 1 ∨
        ∀ kv ∈ current_orders, (parseU64 kv.1).isSome then
      let sorted := sortOrders current_orders
      some { st with
        order_times := sorted.map (fun kv => kv.2.into_spans.1),
        order_types := sorted.map (fun kv => kv.2.into_spans.2.1),
        order_sides := sorted.map (fun kv => kv.2.into_spans.2.2.1),
        order_qty := sorted.map (fun kv => kv.2.into_spans.2.2.2.1),
        order_symbol := sorted.map (fun kv => kv.2.into_spans.2.2.2.2) }
    else none

/-- Models the whole Message::Packet arm of lib.rs lines 88 to 134: first
the equity update, then the orders update; a panic in the equity update
aborts the fold before the orders update runs. -/
def packetStep (packet : BacktestResultPacket) (st : TermState) :
    Option TermState :=
  match equityStep packet.Results.Charts st.equity_data with
  | none => none
  | some eq2 => ordersStep packet.Results.Orders { st with equity_data := eq2 }

/-- Models str::lines as used in lib.rs line 83: split on newline
characters, strip one trailing carriage return per line, and produce no
final empty line for a trailing newline. -/
def rustLines (s : String) : List String :=
  let parts := s.splitOn "\n"
  let parts := if parts.getLast? = some "" then parts.dropLast else parts
  parts.map (fun t => if t.endsWith "\r" then t.dropRight 1 else t)

/-- Models the Message::Log arm of lib.rs lines 79 to 87: each line of the
payload is appended to the log list together with the error flag. -/
def logStep (st : TermState) (msg : String) (error : Bool) : TermState :=
  { st with logs := st.logs ++ (rustLines msg).map (fun line => (line, error)) }

/-- Models one iteration of the receive match in lib.rs lines 76 to 139:
the new state together with the finished flag, or none where the Rust
code would panic. -/
def handleMessage (st : TermState) (m : Message) : Option (TermState × Bool) :=
  match m with
  | Message.Log msg error => some (logStep st msg error, false)
  | Message.Packet packet => (packetStep packet st).map (fun st2 => (st2, false))
  | Message.Stop => some (st, true)

/-- Models the render loop of lib.rs lines 62 to 254 at the level of the
aggregation state: events are folded in order, a Stop event ends the loop
without touching later events, and a panic ends the whole fold. -/
def foldEvents (st : TermState) : List Message → Option TermState
  | [] => some st
  | m :: ms =>
    match handleMessage st m with
    | none => none
    | some (st2, true) => some st2
    | some (st2, false) => foldEvents st2 ms

/-- Result of the graph region of one render pass: either the bordered
frame with no data, or a line chart with its axis bounds. -/
inductive GraphView where
  | frameOnly
  | chart (xBounds : Int × Int) (yLow : WithTop Int) (yHigh : Int)

/-- Models the closure of the lower y bound fold of lib.rs line 215: the
accumulator a.min(b) over WithTop Int, whose top element stands for the
f64 positive infinity start value. -/
def minFoldStep (a : WithTop Int) (b : Int) : WithTop Int := min a (b : WithTop Int)

/-- Models the closure of the upper y bound fold of lib.rs line 216: the
accumulator a.max(b) started at zero. -/
def maxFoldStep (a b : Int) : Int := max a b

/-- Models the graph part of the render pass, lib.rs lines 207 to 238.
With a nonempty equity series the chart takes its x bounds from the first
and last elements and its y bounds from a min fold started at positive
infinity (here the top element of WithTop Int) and a max fold started at
zero; with an empty series only the bordered block is drawn. -/
def renderGraph (equity_data : List (Int × Int)) : GraphView :=
  if equity_data.length ≠ 0 then
    GraphView.chart
      (equity_data.headI.1, equity_data.getLastI.1)
      ((equity_data.map Prod.snd).foldl minFoldStep ⊤)
      ((equity_data.map Prod.snd).foldl maxFoldStep 0)
  else
    GraphView.frameOnly

/-- Models the display windowing of lib.rs lines 193 to 205: the iterator
chain rev().take(height - 2).rev() keeps the tail of the list.  The height
is the full region height in rows; the model is faithful for heights of at
least 2 (below that the Rust usize subtraction would wrap). -/
def tailWindow {α : Type} (height : Nat) (l : List α) : List α :=
  ((l.reverse).take (height - 2)).reverse

/-- Models the terminal device as seen by the session lifecycle: the three
mode flags plus a count of how many times the restore sequence of lib.rs
lines 321 to 325 has run. -/
structure DeviceState where
  rawMode : Bool
  altScreen : Bool
  mouseCapture : Bool
  restoreCount : Nat
deriving DecidableEq, Repr

/-- Models the heap state of one session: whether the boxed TerminalHandler
of lib.rs line 257 is still allocated, the device state, and how many Stop
messages have been sent. -/
structure SessionModel where
  allocated : Bool
  device : DeviceState
  stopsSent : Nat
deriving DecidableEq, Repr

/-- Models the session right after initialize (lib.rs lines 40 to 47):
handler allocated, raw mode enabled, alternate screen entered, mouse
capture enabled, no restore performed yet. -/
def startedSession : SessionModel :=
  { allocated := true,
    device := { rawMode := true, altScreen := true, mouseCapture := true,
                restoreCount := 0 },
    stopsSent := 0 }

/-- Models free, the Stop entry point of lib.rs lines 317 to 326.  The
function begins with Box::from_raw on the handler pointer; on a pointer
whose box was already taken and dropped this is undefined behavior,
modelled as none.  Otherwise raw mode is disabled, one Stop message is
sent, the alternate screen is left with mouse capture disabled, and the
box is dropped at the end of scope, releasing the allocation. -/
def freeSession (s : SessionModel) : Option SessionModel :=
  if s.allocated then
    some { allocated := false,
           device := { rawMode := false, altScreen := false,
                       mouseCapture := false,
                       restoreCount := s.device.restoreCount + 1 },
           stopsSent := s.stopsSent + 1 }
  else none

/-! Concrete fixtures used to instantiate the theorems below. -/

/-- Builds a result packet that carries only equity points, under the chart
and series names that lib.rs lines 91 to 93 look up. -/
def snapOf (pts : List (Int × Int)) : BacktestResultPacket :=
  { Results :=
    { Charts := some [("Strategy Equity",
        { Series := [("Equity",
            { Values := pts.map (fun p => { x := p.1, y := p.2 }) })] })],
      Orders := none } }

/-- Order fixture A. -/
def orderA : Order := ⟨"tA", "yA", "sA", "qA", "mA"⟩

/-- Order fixture B. -/
def orderB : Order := ⟨"tB", "yB", "sB", "qB", "mB"⟩

/-- Order fixture C. -/
def orderC : Order := ⟨"tC", "yC", "sC", "qC", "mC"⟩

/-- Event sequence whose fold leaves a non-adjacent exact duplicate in the
equity series: the duplicate pair (1, 10) is separated by the equal-time
point (1, 20), so the adjacent-only dedup of lib.rs line 104 keeps both
copies. -/
def c1CexMsgs : List Message :=
  [Message.Packet (snapOf [(1, 10), (1, 20)]), Message.Packet (snapOf [(1, 10)])]

/-- Aggregation state reached by folding c1CexMsgs. -/
def c1CexState : TermState :=
  { initState with equity_data := [(1, 10), (1, 20), (1, 10)] }

/-- Event sequence for the C1 witness. -/
def c1WitMsgs : List Message :=
  [Message.Packet (snapOf [(3, 7), (1, 10)])]

/-- Aggregation state reached by folding c1WitMsgs. -/
def c1WitState : TermState :=
  { initState with equity_data := [(1, 10), (3, 7)] }

/-- Equity series for the C2 witness. -/
def c2WitEquity : List (Int × Int) := [(1, 5), (3, 2)]

/-- Packet carrying the order mapping of the C3 example, keys 3, 1, 2. -/
def c3Packet : BacktestResultPacket :=
  { Results := { Charts := none,
                 Orders := some [("3", orderA), ("1", orderB), ("2", orderC)] } }

/-- Pre-fold state with one entry in every order column, for C4. -/
def c4Pre : TermState :=
  { initState with order_times := ["t0"], order_types := ["y0"],
                   order_sides := ["s0"], order_qty := ["q0"],
                   order_symbol := ["m0"] }

/-- Packet with equity points but no orders field, for C4. -/
def c4Packet : BacktestResultPacket := snapOf [(2, 4)]

/-- Packet whose order mapping has exactly one entry, under a key that does
not parse as u64. -/
def c5CexPacket : BacktestResultPacket :=
  { Results := { Charts := none, Orders := some [("x", orderA)] } }

/-- Packet whose order mapping has two entries, one under a key that does
not parse as u64. -/
def c5WitPacket : BacktestResultPacket :=
  { Results := { Charts := none,
                 Orders := some [("x", orderA), ("2", orderB)] } }

/-- Event sequence for the C6 witness: one resent point with a negative
value. -/
def c6WitMsgs : List Message :=
  [Message.Packet (snapOf [(1, 10), (2, -5)])]

/-- Aggregation state reached by folding c6WitMsgs: the negative point is
filtered out. -/
def c6WitState : TermState :=
  { initState with equity_data := [(1, 10)] }

/-- Pre-fold state for the C8 witness. -/
def c8Pre : TermState :=
  { initState with equity_data := [(1, 10)] }

/-- Packet folded on top of c8Pre for the C8 witness. -/
def c8Packet : BacktestResultPacket := snapOf [(2, 7)]

/-- Aggregation state reached by folding c8Packet into c8Pre. -/
def c8State : TermState :=
  { initState with equity_data := [(1, 10), (2, 7)] }

/-- Packet whose chart map holds a Strategy Equity chart without an Equity
series: the unwrap of lib.rs line 91 panics on it. -/
def c10Packet : BacktestResultPacket :=
  { Results := { Charts := some [("Strategy Equity", { Series := [] })],
                 Orders := none } }

/-- Aggregation state reached by folding c3Packet into the initial state:
columns hold B, C, A, in ascending numeric key order. -/
def c3State : TermState :=
  { initState with
      order_times := ["tB", "tC", "tA"], order_types := ["yB", "yC", "yA"],
      order_sides := ["sB", "sC", "sA"], order_qty := ["qB", "qC", "qA"],
      order_symbol := ["mB", "mC", "mA"] }

/-- Aggregation state reached by folding c4Packet into c4Pre: the equity
series gains the new point while the order columns stay untouched. -/
def c4State : TermState :=
  { c4Pre with equity_data := [(2, 4)] }

/-- Aggregation state reached by folding c5CexPacket into the initial
state: the single order with the unparseable key is displayed. -/
def c5CexState : TermState :=
  { initState with
      order_times := ["tA"], order_types := ["yA"], order_sides := ["sA"],
      order_qty := ["qA"], order_symbol := ["mA"] }

/-! Helper lemmas. -/

theorem rustDedup_sublist (l : List (Int × Int)) : List.Sublist (rustDedup l) l :=
  List.destutter_sublist _ l

theorem rustDedup_chain (l : List (Int × Int)) :
    (rustDedup l).Chain' (fun a b => a ≠ b) :=
  List.destutter_is_chain' _ l

theorem sorted_rustDedup {l : List (Int × Int)}
    (h : List.Sorted timeLE l) : List.Sorted timeLE (rustDedup l) :=
  List.Pairwise.sublist (rustDedup_sublist l) h

theorem sorted_sortByTime (l : List (Int × Int)) :
    List.Sorted timeLE (sortByTime l) :=
  List.sorted_insertionSort timeLE l

theorem mem_sortByTime {x : Int × Int} {l : List (Int × Int)} :
    x ∈ sortByTime l ↔ x ∈ l :=
  List.mem_insertionSort timeLE

theorem mem_destutter_ne_of_mem {x : Int × Int} :
    ∀ (a : Int × Int) (l : List (Int × Int)), x ∈ a :: l →
      x ∈ List.destutter' (fun a b => a ≠ b) a l := by
  intro a l
  induction l generalizing a with
  | nil => intro h; simpa using h
  | cons b t ih =>
    intro hx
    rw [List.destutter']
    by_cases hab : a ≠ b
    · rw [if_pos hab]
      rcases List.mem_cons.mp hx with h | h
      · exact h ▸ List.mem_cons_self _ _
      · exact List.mem_cons_of_mem _ (ih b h)
    · rw [if_neg hab]
      push_neg at hab
      subst hab
      apply ih a
      rcases List.mem_cons.mp hx with h | h
      · exact h ▸ List.mem_cons_self _ _
      · exact h

theorem mem_rustDedup_of_mem {x : Int × Int} {l : List (Int × Int)}
    (h : x ∈ l) : x ∈ rustDedup l := by
  cases l with
  | nil => simp at h
  | cons a t =>
    rw [rustDedup, List.destutter_cons']
    exact mem_destutter_ne_of_mem a t h

theorem reverse_take_reverse {α : Type} (k : Nat) (l : List α) :
    (l.reverse.take k).reverse = l.drop (l.length - k) := by
  induction l with
  | nil => simp
  | cons a t ih =>
    by_cases hk : k ≤ t.length
    · rw [List.reverse_cons, List.take_append_of_le_length (by simpa using hk), ih]
      have h2 : (a :: t).length - k = (t.length - k) + 1 := by
        simp only [List.length_cons]; omega
      rw [h2, List.drop_succ_cons]
    · have h1 : (t.reverse ++ [a]).length ≤ k := by
        simp only [List.length_append, List.length_reverse, List.length_singleton]
        omega
      have h2 : (a :: t).length - k = 0 := by
        simp only [List.length_cons]; omega
      rw [List.reverse_cons, List.take_of_length_le h1, h2, List.drop_zero,
        List.reverse_append, List.reverse_reverse, List.reverse_singleton,
        List.singleton_append]

theorem foldl_min_spec (l : List Int) (a : WithTop Int) :
    (∀ v ∈ l, l.foldl minFoldStep a ≤ (v : WithTop Int))
    ∧ l.foldl minFoldStep a ≤ a
    ∧ (l.foldl minFoldStep a = a
        ∨ ∃ v ∈ l, l.foldl minFoldStep a = (v : WithTop Int)) := by
  induction l generalizing a with
  | nil => exact ⟨by simp, le_rfl, Or.inl rfl⟩
  | cons c t ih =>
    obtain ⟨h1, h2, h3⟩ := ih (minFoldStep a c)
    rw [List.foldl_cons]
    have hl : minFoldStep a c ≤ a := min_le_left _ _
    have hr : minFoldStep a c ≤ (c : WithTop Int) := min_le_right _ _
    refine ⟨?_, ?_, ?_⟩
    · intro v hv
      rcases List.mem_cons.mp hv with rfl | hv
      · exact le_trans h2 hr
      · exact h1 v hv
    · exact le_trans h2 hl
    · rcases h3 with h | ⟨v, hv, he⟩
      · rcases min_choice a (c : WithTop Int) with hm | hm
        · exact Or.inl (h.trans hm)
        · exact Or.inr ⟨c, List.mem_cons_self _ _, h.trans hm⟩
      · exact Or.inr ⟨v, List.mem_cons_of_mem _ hv, he⟩

theorem foldl_max_spec (l : List Int) (a : Int) :
    (∀ v ∈ l, v ≤ l.foldl maxFoldStep a)
    ∧ a ≤ l.foldl maxFoldStep a
    ∧ (l.foldl maxFoldStep a = a
        ∨ l.foldl maxFoldStep a ∈ l) := by
  induction l generalizing a with
  | nil => exact ⟨by simp, le_rfl, Or.inl rfl⟩
  | cons c t ih =>
    obtain ⟨h1, h2, h3⟩ := ih (maxFoldStep a c)
    rw [List.foldl_cons]
    have hl : a ≤ maxFoldStep a c := le_max_left _ _
    have hr : c ≤ maxFoldStep a c := le_max_right _ _
    refine ⟨?_, ?_, ?_⟩
    · intro v hv
      rcases List.mem_cons.mp hv with rfl | hv
      · exact le_trans hr h2
      · exact h1 v hv
    · exact le_trans hl h2
    · rcases h3 with h | h
      · rcases max_choice a c with hm | hm
        · exact Or.inl (h.trans hm)
        · refine Or.inr ?_
          rw [h]
          show maxFoldStep a c ∈ c :: t
          rw [maxFoldStep, hm]
          exact List.mem_cons_self _ _
      · exact Or.inr (List.mem_cons_of_mem _ h)

theorem exists_max_mem :
    ∀ l : List Int, l ≠ [] → ∃ M, M ∈ l ∧ ∀ v ∈ l, v ≤ M := by
  intro l
  induction l with
  | nil => intro h; exact absurd rfl h
  | cons c t ih =>
    intro _
    cases t with
    | nil =>
      exact ⟨c, List.mem_cons_self _ _, by intro v hv; simp at hv; omega⟩
    | cons d u =>
      obtain ⟨M, hM, hall⟩ := ih (by simp)
      refine ⟨max c M, ?_, ?_⟩
      · rcases max_choice c M with hm | hm
        · rw [hm]; exact List.mem_cons_self _ _
        · rw [hm]; exact List.mem_cons_of_mem _ hM
      · intro v hv
        rcases List.mem_cons.mp hv with rfl | hv
        · exact le_max_left _ _
        · exact le_trans (hall v hv) (le_max_right _ _)

theorem ordersStep_equity {o : Option (List (String × Order))}
    {st st2 : TermState} (h : ordersStep o st = some st2) :
    st2.equity_data = st.equity_data := by
  cases o with
  | none =>
    simp only [ordersStep] at h
    cases h
    rfl
  | some cur =>
    simp only [ordersStep] at h
    by_cases hc : cur.length ≤ 1 ∨ ∀ kv ∈ cur, (parseU64 kv.1).isSome
    · rw [if_pos hc] at h
      cases h
      rfl
    · rw [if_neg hc] at h
      cases h

theorem ordersStep_some_pos {cur : List (String × Order)} {st : TermState}
    (hc : cur.length ≤ 1 ∨ ∀ kv ∈ cur, (parseU64 kv.1).isSome) :
    ordersStep (some cur) st = some { st with
      order_times := (sortOrders cur).map (fun kv => kv.2.into_spans.1),
      order_types := (sortOrders cur).map (fun kv => kv.2.into_spans.2.1),
      order_sides := (sortOrders cur).map (fun kv => kv.2.into_spans.2.2.1),
      order_qty := (sortOrders cur).map (fun kv => kv.2.into_spans.2.2.2.1),
      order_symbol := (sortOrders cur).map (fun kv => kv.2.into_spans.2.2.2.2) } := by
  simp only [ordersStep]
  rw [if_pos hc]

theorem ordersStep_some_neg {cur : List (String × Order)} {st : TermState}
    (hc : ¬(cur.length ≤ 1 ∨ ∀ kv ∈ cur, (parseU64 kv.1).isSome)) :
    ordersStep (some cur) st = none := by
  simp only [ordersStep]
  rw [if_neg hc]

theorem packetStep_eq_none {p : BacktestResultPacket} {st : TermState}
    (heq : equityStep p.Results.Charts st.equity_data = none) :
    packetStep p st = none := by
  simp [packetStep, heq]

theorem packetStep_eq_ordersStep {p : BacktestResultPacket} {st : TermState}
    {eq2 : List (Int × Int)}
    (heq : equityStep p.Results.Charts st.equity_data = some eq2) :
    packetStep p st = ordersStep p.Results.Orders { st with equity_data := eq2 } := by
  simp [packetStep, heq]

theorem equityStep_shape (charts : Option (List (String × ChartData)))
    (eq : List (Int × Int)) :
    equityStep charts eq = none
    ∨ equityStep charts eq = some eq
    ∨ ∃ np, (∀ q ∈ np, 0 < q.2) ∧
        equityStep charts eq = some (rustDedup (sortByTime (eq ++ np))) := by
  cases charts with
  | none => exact Or.inr (Or.inl rfl)
  | some pcs =>
    cases hl : pcs.lookup "Strategy Equity" with
    | none =>
      refine Or.inr (Or.inl ?_)
      simp [equityStep, hl]
    | some v =>
      cases hs : v.Series.lookup "Equity" with
      | none =>
        refine Or.inl ?_
        simp [equityStep, hl, hs]
      | some points =>
        refine Or.inr (Or.inr ⟨(points.Values.map (fun xy => (xy.x, xy.y))).filter
          (fun q => decide (0 < q.2)), ?_, ?_⟩)
        · intro q hq
          exact of_decide_eq_true (List.mem_filter.mp hq).2
        · simp [equityStep, hl, hs]

theorem packetStep_equity_shape {p : BacktestResultPacket}
    {st st3 : TermState} (hp : packetStep p st = some st3) :
    st3.equity_data = st.equity_data
    ∨ ∃ np, (∀ q ∈ np, 0 < q.2) ∧
        st3.equity_data = rustDedup (sortByTime (st.equity_data ++ np)) := by
  cases heq : equityStep p.Results.Charts st.equity_data with
  | none => rw [packetStep_eq_none heq] at hp; cases hp
  | some eq2 =>
    rw [packetStep_eq_ordersStep heq] at hp
    have he3 : st3.equity_data = eq2 := ordersStep_equity hp
    rcases equityStep_shape p.Results.Charts st.equity_data with h | h | ⟨np, hpos, h⟩
    · rw [h] at heq; cases heq
    · rw [h] at heq
      cases heq
      exact Or.inl he3
    · rw [h] at heq
      cases heq
      exact Or.inr ⟨np, hpos, he3⟩

theorem handleMessage_equity_shape {st : TermState} {m : Message}
    {st2 : TermState} {b : Bool} (h : handleMessage st m = some (st2, b)) :
    st2.equity_data = st.equity_data
    ∨ ∃ np, (∀ q ∈ np, 0 < q.2) ∧
        st2.equity_data = rustDedup (sortByTime (st.equity_data ++ np)) := by
  cases m with
  | Log msg error =>
    simp only [handleMessage] at h
    cases h
    exact Or.inl rfl
  | Stop =>
    simp only [handleMessage] at h
    cases h
    exact Or.inl rfl
  | Packet p =>
    simp only [handleMessage] at h
    cases hp : packetStep p st with
    | none => rw [hp] at h; cases h
    | some st3 =>
      rw [hp] at h
      simp only [Option.map_some'] at h
      cases h
      exact packetStep_equity_shape hp

theorem foldEvents_preserve (P : TermState → Prop)
    (hstep : ∀ st m st2 b, handleMessage st m = some (st2, b) → P st → P st2) :
    ∀ (msgs : List Message) (st st2 : TermState),
      foldEvents st msgs = some st2 → P st → P st2 := by
  intro msgs
  induction msgs with
  | nil =>
    intro st st2 h hP
    simp only [foldEvents] at h
    cases h
    exact hP
  | cons m ms ih =>
    intro st st2 h hP
    simp only [foldEvents] at h
    cases hm : handleMessage st m with
    | none => rw [hm] at h; cases h
    | some pr =>
      obtain ⟨st3, b⟩ := pr
      rw [hm] at h
      cases b with
      | true =>
        simp only [] at h
        cases h
        exact hstep st m st2 true hm hP
      | false =>
        simp only [] at h
        exact ih st3 st2 h (hstep st m st3 false hm hP)

theorem orderedInsert_filter_self (a : Int × Int) :
    ∀ s : List (Int × Int),
      (s.orderedInsert timeLE a).filter (fun q => decide (q.1 = a.1)) =
        a :: s.filter (fun q => decide (q.1 = a.1)) := by
  intro s
  induction s with
  | nil =>
    simp [List.orderedInsert]
  | cons b s ih =>
    rw [List.orderedInsert]
    by_cases hab : timeLE a b
    · rw [if_pos hab, List.filter_cons_of_pos (by simp)]
    · have hb : (fun q : Int × Int => decide (q.1 = a.1)) b = false := by
        have : b.1 < a.1 := lt_of_not_le hab
        simp only [decide_eq_false_iff_not]
        omega
      rw [if_neg hab, List.filter_cons_of_neg (by simpa using hb),
        List.filter_cons_of_neg (by simpa using hb), ih]

theorem orderedInsert_filter_other {t : Int} (a : Int × Int) (hne : a.1 ≠ t) :
    ∀ s : List (Int × Int),
      (s.orderedInsert timeLE a).filter (fun q => decide (q.1 = t)) =
        s.filter (fun q => decide (q.1 = t)) := by
  intro s
  have ha : (fun q : Int × Int => decide (q.1 = t)) a = false := by
    simpa using hne
  induction s with
  | nil =>
    simp [List.orderedInsert, hne]
  | cons b s ih =>
    rw [List.orderedInsert]
    by_cases hab : timeLE a b
    · rw [if_pos hab, List.filter_cons_of_neg (by simpa using ha)]
    · rw [if_neg hab]
      by_cases hbt : b.1 = t
      · rw [List.filter_cons_of_pos (by simpa using hbt),
          List.filter_cons_of_pos (by simpa using hbt), ih]
      · rw [List.filter_cons_of_neg (by simpa using hbt),
          List.filter_cons_of_neg (by simpa using hbt), ih]

theorem sortByTime_filter_time (t : Int) :
    ∀ l : List (Int × Int),
      (sortByTime l).filter (fun q => decide (q.1 = t)) =
        l.filter (fun q => decide (q.1 = t)) := by
  intro l
  induction l with
  | nil => rfl
  | cons a l ih =>
    have hs : sortByTime (a :: l) = (sortByTime l).orderedInsert timeLE a := rfl
    rw [hs]
    by_cases hat : a.1 = t
    · subst hat
      rw [orderedInsert_filter_self a (sortByTime l), ih,
        List.filter_cons_of_pos (by simp)]
    · rw [orderedInsert_filter_other a hat (sortByTime l), ih,
        List.filter_cons_of_neg (by simpa using hat)]

theorem renderGraph_cons (p : Int × Int) (rest : List (Int × Int)) :
    renderGraph (p :: rest) =
      GraphView.chart ((p :: rest).headI.1, (p :: rest).getLastI.1)
        (((p :: rest).map Prod.snd).foldl minFoldStep ⊤)
        (((p :: rest).map Prod.snd).foldl maxFoldStep 0) := by
  simp [renderGraph]

/-! Claim theorems. -/

/-- C1, counterexample: fold the two snapshots of c1CexMsgs from the
initial state.  The first delivers the equal-time points (1, 10) and
(1, 20); the second resends (1, 10).  The stable sort keeps all three
points in arrival order and the adjacent-only dedup of lib.rs line 104
removes nothing, so the final equity sequence [(1,10), (1,20), (1,10)]
contains the exact pair (1, 10) twice, contradicting the claim that no two
elements are identical. -/
theorem c1_counterexample :
    foldEvents initState c1CexMsgs = some c1CexState
    ∧ ¬ c1CexState.equity_data.Nodup :=
  ⟨by decide, by decide⟩

/-- C1 (amended): after folding any sequence of events from the initial
state the equity sequence is sorted ascending by time and no two ADJACENT
elements are identical (the dedup of lib.rs line 104 removes consecutive
duplicates only); moreover the sort is stable, so the points of each fixed
time keep their source order: filtering any list to one time commutes with
the sort. -/
theorem c1_equity_sorted_adjacent_dedup :
    (∀ (msgs : List Message) (st : TermState),
        foldEvents initState msgs = some st →
          List.Sorted timeLE st.equity_data
          ∧ st.equity_data.Chain' (fun a b => a ≠ b))
    ∧ (∀ (t : Int) (l : List (Int × Int)),
        (sortByTime l).filter (fun q => decide (q.1 = t)) =
          l.filter (fun q => decide (q.1 = t))) := by
  constructor
  · intro msgs st h
    refine foldEvents_preserve
      (fun s => List.Sorted timeLE s.equity_data
        ∧ s.equity_data.Chain' (fun a b => a ≠ b)) ?_ msgs initState st h
      ⟨by decide, by decide⟩
    intro st1 m st2 b hh hP
    rcases handleMessage_equity_shape hh with he | ⟨np, _, he⟩
    · rw [he]; exact hP
    · rw [he]
      exact ⟨sorted_rustDedup (sorted_sortByTime _), rustDedup_chain _⟩
  · exact sortByTime_filter_time

/-- C1, witness: the amended theorem instantiated at the concrete fold of
c1WitMsgs. -/
theorem c1_equity_sorted_adjacent_dedup_witness :
    List.Sorted timeLE c1WitState.equity_data
    ∧ c1WitState.equity_data.Chain' (fun a b => a ≠ b) :=
  c1_equity_sorted_adjacent_dedup.1 c1WitMsgs c1WitState (by decide)

/-- C2: with an empty equity series the render pass draws only the
bordered frame; with a nonempty series it draws a chart whose x bounds are
the times of the first and last elements and whose y bounds are the
minimum value over all points and the maximum value over all points
clamped from below by zero (lib.rs lines 207 to 238). -/
theorem c2_graph_bounds :
    ∀ equity_data : List (Int × Int),
      (equity_data = [] → renderGraph equity_data = GraphView.frameOnly)
      ∧ (equity_data ≠ [] →
          ∃ (first lastp : Int × Int) (m M : Int),
            equity_data.head? = some first
            ∧ equity_data.getLast? = some lastp
            ∧ m ∈ equity_data.map Prod.snd
            ∧ (∀ v ∈ equity_data.map Prod.snd, m ≤ v)
            ∧ M ∈ equity_data.map Prod.snd
            ∧ (∀ v ∈ equity_data.map Prod.snd, v ≤ M)
            ∧ renderGraph equity_data =
                GraphView.chart (first.1, lastp.1) (m : WithTop Int) (max 0 M)) := by
  intro equity_data
  constructor
  · intro h
    subst h
    rfl
  · intro hne
    obtain ⟨p, rest, rfl⟩ := List.exists_cons_of_ne_nil hne
    have hvals : (p :: rest).map Prod.snd ≠ [] := by simp
    obtain ⟨hm1, _, hm3⟩ := foldl_min_spec ((p :: rest).map Prod.snd) ⊤
    obtain ⟨hx1, hx2, hx3⟩ := foldl_max_spec ((p :: rest).map Prod.snd) 0
    obtain ⟨M, hMmem, hMall⟩ := exists_max_mem _ hvals
    have hmin : ∃ m, m ∈ (p :: rest).map Prod.snd
        ∧ (∀ v ∈ (p :: rest).map Prod.snd, m ≤ v)
        ∧ ((p :: rest).map Prod.snd).foldl minFoldStep ⊤ = (m : WithTop Int) := by
      rcases hm3 with h | ⟨v, hv, he⟩
      · exfalso
        have := hm1 p.2 (by simp)
        rw [h, top_le_iff] at this
        exact WithTop.coe_ne_top this
      · exact ⟨v, hv, fun w hw => WithTop.coe_le_coe.mp (he ▸ hm1 w hw), he⟩
    obtain ⟨m, hmmem, hmall, hmfold⟩ := hmin
    have hmax : ((p :: rest).map Prod.snd).foldl maxFoldStep 0 = max 0 M := by
      apply le_antisymm
      · rcases hx3 with h | h
        · rw [h]; exact le_max_left _ _
        · exact le_trans (hMall _ h) (le_max_right _ _)
      · exact max_le hx2 (hx1 M hMmem)
    refine ⟨p, (p :: rest).getLast hne, m, M, rfl,
      List.getLast?_eq_getLast_of_ne_nil hne, hmmem, hmall, hMmem, hMall, ?_⟩
    rw [renderGraph_cons, hmfold, hmax]
    have hli : (p :: rest).getLastI = (p :: rest).getLast hne := by
      rw [List.getLastI_eq_getLast?, List.getLast?_eq_getLast_of_ne_nil hne,
        Option.iget_some]
    rw [hli]
    rfl

/-- C2, witness: the theorem instantiated at the concrete series
c2WitEquity, whose chart has x bounds (1, 3) and y bounds (2, 5). -/
theorem c2_graph_bounds_witness :
    ∃ (first lastp : Int × Int) (m M : Int),
      c2WitEquity.head? = some first
      ∧ c2WitEquity.getLast? = some lastp
      ∧ m ∈ c2WitEquity.map Prod.snd
      ∧ (∀ v ∈ c2WitEquity.map Prod.snd, m ≤ v)
      ∧ M ∈ c2WitEquity.map Prod.snd
      ∧ (∀ v ∈ c2WitEquity.map Prod.snd, v ≤ M)
      ∧ renderGraph c2WitEquity =
          GraphView.chart (first.1, lastp.1) (m : WithTop Int) (max 0 M) :=
  (c2_graph_bounds c2WitEquity).2 (by decide)

/-- C3: whenever a packet carries an orders mapping and the fold succeeds,
the five order columns are wholly rebuilt as the five projections of the
single entry list sorted ascending by the numeric value of the order key,
so they have equal length and index i of every column describes entry i of
that sorted list (lib.rs lines 110 to 133). -/
theorem c3_orders_replace :
    ∀ (p : BacktestResultPacket) (st st2 : TermState)
      (cur : List (String × Order)),
      p.Results.Orders = some cur →
      packetStep p st = some st2 →
        (sortOrders cur).Pairwise keyLE
        ∧ st2.order_times = (sortOrders cur).map (fun kv => kv.2.into_spans.1)
        ∧ st2.order_types = (sortOrders cur).map (fun kv => kv.2.into_spans.2.1)
        ∧ st2.order_sides = (sortOrders cur).map (fun kv => kv.2.into_spans.2.2.1)
        ∧ st2.order_qty = (sortOrders cur).map (fun kv => kv.2.into_spans.2.2.2.1)
        ∧ st2.order_symbol = (sortOrders cur).map (fun kv => kv.2.into_spans.2.2.2.2)
        ∧ st2.order_times.length = st2.order_types.length
        ∧ st2.order_types.length = st2.order_sides.length
        ∧ st2.order_sides.length = st2.order_qty.length
        ∧ st2.order_qty.length = st2.order_symbol.length := by
  intro p st st2 cur ho h
  cases heq : equityStep p.Results.Charts st.equity_data with
  | none => rw [packetStep_eq_none heq] at h; cases h
  | some eq2 =>
    rw [packetStep_eq_ordersStep heq, ho] at h
    by_cases hc : cur.length ≤ 1 ∨ ∀ kv ∈ cur, (parseU64 kv.1).isSome
    · rw [ordersStep_some_pos hc] at h
      cases h
      refine ⟨List.sorted_insertionSort keyLE cur, rfl, rfl, rfl, rfl, rfl,
        ?_, ?_, ?_, ?_⟩ <;> simp
    · rw [ordersStep_some_neg hc] at h
      cases h

/-- C3, witness: folding the orders mapping with keys 3, 1, 2 bound to the
fixtures A, B, C produces the column order B, C, A. -/
theorem c3_orders_replace_witness :
    c3State.order_times =
      (sortOrders [("3", orderA), ("1", orderB), ("2", orderC)]).map
        (fun kv => kv.2.into_spans.1)
    ∧ c3State.order_times = ["tB", "tC", "tA"] :=
  ⟨(c3_orders_replace c3Packet initState c3State
      [("3", orderA), ("1", orderB), ("2", orderC)] (by decide) (by decide)).2.1,
    by decide⟩

/-- C4: whenever a packet carries no orders mapping and the fold succeeds,
every order column is exactly its pre-fold value (lib.rs line 110: the
whole orders branch is skipped). -/
theorem c4_absent_orders_keep_columns :
    ∀ (p : BacktestResultPacket) (st st2 : TermState),
      p.Results.Orders = none →
      packetStep p st = some st2 →
        st2.order_times = st.order_times
        ∧ st2.order_types = st.order_types
        ∧ st2.order_sides = st.order_sides
        ∧ st2.order_qty = st.order_qty
        ∧ st2.order_symbol = st.order_symbol := by
  intro p st st2 ho h
  cases heq : equityStep p.Results.Charts st.equity_data with
  | none => rw [packetStep_eq_none heq] at h; cases h
  | some eq2 =>
    rw [packetStep_eq_ordersStep heq, ho] at h
    simp only [ordersStep] at h
    cases h
    exact ⟨rfl, rfl, rfl, rfl, rfl⟩

/-- C4, witness: folding a packet that carries equity points but no orders
field on top of a state with populated columns keeps every column. -/
theorem c4_absent_orders_keep_columns_witness :
    c4State.order_times = c4Pre.order_times
    ∧ c4State.order_types = c4Pre.order_types
    ∧ c4State.order_sides = c4Pre.order_sides
    ∧ c4State.order_qty = c4Pre.order_qty
    ∧ c4State.order_symbol = c4Pre.order_symbol :=
  c4_absent_orders_keep_columns c4Packet c4Pre c4State (by decide) (by decide)

/-- C5, counterexample: a one-entry orders mapping under the unparseable
key x is NOT fatal: the sort of a one-element vector never invokes the
comparator of lib.rs line 116, so no unwrap panics and the fold replaces
the columns with that single order. -/
theorem c5_singleton_counterexample :
    (∃ kv ∈ [("x", orderA)], parseU64 kv.1 = none)
    ∧ packetStep c5CexPacket initState = some c5CexState := by
  exact ⟨⟨("x", orderA), by decide, by decide⟩, by decide⟩

/-- C5 (amended): an orders mapping of at least two entries in which some
key does not parse as u64 makes the fold step fatal, aborting the whole
update (the comparator of lib.rs line 116 unwraps the parse of every
compared key, and a sort of two or more entries compares each of them);
a one-entry mapping is never compared, so its update proceeds. -/
theorem c5_malformed_key_fatal :
    ∀ (p : BacktestResultPacket) (st : TermState)
      (cur : List (String × Order)),
      p.Results.Orders = some cur →
      2 ≤ cur.length →
      (∃ kv ∈ cur, parseU64 kv.1 = none) →
      packetStep p st = none := by
  intro p st cur ho hlen hbad
  cases heq : equityStep p.Results.Charts st.equity_data with
  | none => exact packetStep_eq_none heq
  | some eq2 =>
    rw [packetStep_eq_ordersStep heq, ho]
    apply ordersStep_some_neg
    intro hc
    rcases hc with hc | hc
    · omega
    · obtain ⟨kv, hmem, hnone⟩ := hbad
      have := hc kv hmem
      rw [hnone] at this
      simp at this

/-- C5, witness: the amended theorem instantiated at the two-entry mapping
with keys x and 2: that fold is none. -/
theorem c5_malformed_key_fatal_witness :
    packetStep c5WitPacket initState = none :=
  c5_malformed_key_fatal c5WitPacket initState [("x", orderA), ("2", orderB)]
    (by decide) (by decide) ⟨("x", orderA), by decide, by decide⟩

/-- C6: after folding any sequence of events from the initial state, every
point of the equity series has a strictly positive value, so a point with
value at most zero never appears no matter how often it is resent (the
filter of lib.rs line 96 drops it on every delivery). -/
theorem c6_no_nonpositive_equity :
    ∀ (msgs : List Message) (st : TermState),
      foldEvents initState msgs = some st → ∀ q ∈ st.equity_data, 0 < q.2 := by
  intro msgs st h
  refine foldEvents_preserve (fun s => ∀ q ∈ s.equity_data, 0 < q.2)
    ?_ msgs initState st h ?_
  · intro st1 m st2 b hh hP
    rcases handleMessage_equity_shape hh with he | ⟨np, hpos, he⟩
    · rw [he]; exact hP
    · rw [he]
      intro q hq
      have h1 : q ∈ sortByTime (st1.equity_data ++ np) :=
        (rustDedup_sublist _).subset hq
      rcases List.mem_append.mp (mem_sortByTime.mp h1) with h3 | h3
      · exact hP q h3
      · exact hpos q h3
  · intro q hq
    simp [initState] at hq

/-- C6, witness: the theorem instantiated at the fold of a snapshot whose
points are (1, 10) and (2, -5); the surviving point is positive. -/
theorem c6_no_nonpositive_equity_witness :
    (0 : Int) < ((1 : Int), (10 : Int)).2 :=
  c6_no_nonpositive_equity c6WitMsgs c6WitState (by decide) (1, 10) (by decide)

/-- C7: for any list and any region height of at least 2 rows, the
displayed window of lib.rs lines 193 to 205 is the suffix of the list of
length min(height - 2, length), in original order. -/
theorem c7_tail_window :
    ∀ {α : Type} (height : Nat) (l : List α), 2 ≤ height →
      tailWindow height l = l.drop (l.length - (height - 2))
      ∧ (tailWindow height l).length = min (height - 2) l.length := by
  intro α height l _
  constructor
  · exact reverse_take_reverse (height - 2) l
  · simp [tailWindow]

/-- C7, witness: a pane of height 7 over ten accumulated lines displays
exactly lines 6 to 10 in original order. -/
theorem c7_tail_window_witness :
    (tailWindow 7 [1, 2, 3, 4, 5, 6, 7, 8, 9, 10]
        = List.drop ([1, 2, 3, 4, 5, 6, 7, 8, 9, 10].length - (7 - 2))
            [1, 2, 3, 4, 5, 6, 7, 8, 9, 10]
      ∧ (tailWindow 7 [1, 2, 3, 4, 5, 6, 7, 8, 9, 10]).length
          = min (7 - 2) [1, 2, 3, 4, 5, 6, 7, 8, 9, 10].length)
    ∧ tailWindow 7 [1, 2, 3, 4, 5, 6, 7, 8, 9, 10] = [6, 7, 8, 9, 10] :=
  ⟨c7_tail_window 7 [1, 2, 3, 4, 5, 6, 7, 8, 9, 10] (by decide), by decide⟩

/-- C8: one fold of any event never removes a point from the equity
series: the packet branch only appends, sorts and removes adjacent copies
of points that remain present (lib.rs lines 99 to 104). -/
theorem c8_equity_never_shrinks :
    ∀ (st : TermState) (m : Message) (st2 : TermState) (b : Bool),
      handleMessage st m = some (st2, b) →
        ∀ q ∈ st.equity_data, q ∈ st2.equity_data := by
  intro st m st2 b h q hq
  rcases handleMessage_equity_shape h with he | ⟨np, _, he⟩
  · rw [he]; exact hq
  · rw [he]
    exact mem_rustDedup_of_mem (mem_sortByTime.mpr (List.mem_append_left _ hq))

/-- C8, witness: the point (1, 10) present before folding c8Packet is
still present afterwards. -/
theorem c8_equity_never_shrinks_witness :
    ((1 : Int), (10 : Int)) ∈ c8State.equity_data :=
  c8_equity_never_shrinks c8Pre (Message.Packet c8Packet) c8State false
    (by decide) (1, 10) (by decide)

/-- C9: the model of free (lib.rs lines 317 to 326) evaluated at the
failing input of the claim.  A first call restores the terminal (raw mode
off, alternate screen left) with restore count exactly 1, but a second
call on the same handler re-runs Box::from_raw on the already freed
allocation, which is undefined behavior (none), not the safe no-op the
claim requires. -/
theorem c9_stop_twice_model :
    freeSession startedSession =
      some { allocated := false,
             device := { rawMode := false, altScreen := false,
                         mouseCapture := false, restoreCount := 1 },
             stopsSent := 1 }
    ∧ (freeSession startedSession).bind freeSession = none :=
  ⟨by decide, by decide⟩

/-- C10: the fold is not total: a packet whose chart map holds a Strategy
Equity chart without an Equity series makes the fold fail (the unwrap of
lib.rs line 91), rather than treating the points as absent. -/
theorem c10_missing_series_panics :
    handleMessage initState (Message.Packet c10Packet) = none := by
  decide

end LeanTui
